import Mathlib

/-!
Verification of the citation-management tool `zo` (source: `zo.py`).

The embedding is shallow: every Python function that the claims mention is
translated into an executable Lean definition over `String` / `List Char`.
Files are modelled as the list of raw lines that `readline` yields (each line
keeps its trailing newline, end of file is the end of the list); Python sets
of strings become `Finset String`; Python dicts become association lists with
the usual first-key-wins lookup.  Python string primitives (`str.strip`,
`str.split` on a one-character separator, `str.replace(c, "")`, `in`,
`endswith`) are re-implemented structurally so that every definition can be
evaluated by the kernel on concrete inputs.

A Python call that would raise an exception (`line.split('{')[1]` on a line
without `{`) is modelled by `Option`: `none` is the crash, `some` a normal
return.
-/

/-- Python `str.strip()` whitespace test: space, tab, newline, carriage
return, vertical tab and form feed. -/
def pyIsSpace (c : Char) : Bool :=
  c = ' ' || c = '\t' || c = '\n' || c = '\r' || c = '\x0b' || c = '\x0c'

/-- Python `s.strip()`: drop leading and trailing whitespace. -/
def pyStrip (s : String) : String :=
  String.mk (((s.data.dropWhile pyIsSpace).reverse.dropWhile pyIsSpace).reverse)

/-- Worker for `pySplit`: accumulates the current piece in reverse. -/
def pySplitAux (sep : Char) : List Char → List Char → List String
  | [], acc => [String.mk acc.reverse]
  | c :: rest, acc =>
    if c = sep then String.mk acc.reverse :: pySplitAux sep rest []
    else pySplitAux sep rest (c :: acc)

/-- Python `s.split(sep)` for a one-character separator (the only form
`zo.py` uses: `'{'`, `','`, `'.'`).  Always returns at least one piece. -/
def pySplit (sep : Char) (s : String) : List String := pySplitAux sep s.data []

/-- Python `s[0]`: the first character of a string.  In `zo.py` it is only
applied to strings already known to be non-empty. -/
def pyFirst (s : String) : Char := s.data.headD '\x00'

/-- Concatenation of a list of strings (Python `"".join` / repeated `+=`). -/
def strConcat : List String → String
  | [] => ""
  | s :: rest => s ++ strConcat rest

/-- Python `s.replace(c, "")` for a one-character pattern: drop every
occurrence of the character. -/
def removeChar (c : Char) (s : String) : String :=
  String.mk (s.data.filter (fun x => x ≠ c))

/-- Python `needle in hay` on strings: contiguous-substring test. -/
def strContainsAux (nd : List Char) : List Char → Bool
  | [] => nd.isEmpty
  | c :: rest => nd.isPrefixOf (c :: rest) || strContainsAux nd rest

/-! ## `sanitize` (zo.py 108-112) -/

/-- `sanitize`: strip newlines, tabs and carriage returns from a field
value (zo.py 108-112). -/
def sanitize (s : String) : String :=
  removeChar '\r' (removeChar '\t' (removeChar '\n' s))

/-! ## Dictionary model for `bibtexparser` results

`bib_database.entries_dict` maps a citation key to its entry, an entry maps a
field name to its raw value.  Both are modelled as association lists with
unique keys. -/

/-- Python `d[k]` / `k in d` on a dict, as an association-list lookup. -/
def dictFind {α : Type} : List (String × α) → String → Option α
  | [], _ => none
  | p :: rest, k => if p.1 = k then some p.2 else dictFind rest k

/-- Python `d[k] = v` on a dict: replace in place if the key is present,
append otherwise. -/
def dictSet : List (String × String) → String → String → List (String × String)
  | [], k, v => [(k, v)]
  | p :: rest, k, v => if p.1 = k then (k, v) :: rest else p :: dictSet rest k v

/-- `bib_lookup` (zo.py 115-124): single-field lookup; `none` when the key or
the field is absent, `some` of the sanitized value otherwise.  The parsed
database stands in for `bibtexparser.load`'s result. -/
def bib_lookup (db : List (String × List (String × String))) (bibnick what : String) :
    Option String :=
  match dictFind db bibnick with
  | none => none
  | some entry =>
    match dictFind entry what with
    | none => none
    | some v => some (sanitize v)

/-- First loop of `bib_lookup_many` (zo.py 135-137): copy each requested
field that the entry has into the result dict. -/
def collectStep (entry : List (String × String)) (r : List (String × String)) (w : String) :
    List (String × String) :=
  match dictFind entry w with
  | some v => dictSet r w (sanitize v)
  | none => r

/-- Second loop of `bib_lookup_many` (zo.py 138-140): give every requested
field that is still absent the explicit empty string. -/
def fillStep (r : List (String × String)) (w : String) : List (String × String) :=
  match dictFind r w with
  | none => dictSet r w ""
  | some _ => r

/-- `bib_lookup_many` (zo.py 127-141): batch lookup of several fields of one
entry; absent fields are mapped to `""`. -/
def bib_lookup_many (db : List (String × List (String × String))) (bibnick : String)
    (what : List String) : List (String × String) :=
  what.foldl fillStep
    (match dictFind db bibnick with
     | none => []
     | some entry => what.foldl (collectStep entry) [])

/-! ## LaTeX citation scanner `latex_cites` (zo.py 33-35, 42-71)

The regular expression is `(\cite|\fullcite)\{(.*?)\}` and `re.findall` scans
left to right, resuming after each match; `.` does not match a newline and
`.*?` is non-greedy, so an argument runs to the first `}` after the `{`.
Each file's lines are stripped and concatenated before scanning. -/

/-- Matching of the non-greedy tail `(.*?)\}` of the citation regex at the
current position: the characters up to the first `}`, failing on a newline or
on end of input.  Returns the argument and the rest of the input. -/
def splitBrace : List Char → Option (String × List Char)
  | [] => none
  | c :: rest =>
    if c = '}' then some ("", rest)
    else if c = '\n' then none
    else
      match splitBrace rest with
      | some (s, rem) => some (String.mk (c :: s.data), rem)
      | none => none

/-- One left-to-right pass of `re.findall` with `(\cite|\fullcite)\{(.*?)\}`:
the list of captured argument strings, in order.  The fuel argument (the
input length suffices) only forces structural termination; every step
consumes at least one character. -/
def citeMatchesFuel : Nat → List Char → List String
  | 0, _ => []
  | _ + 1, [] => []
  | fuel + 1, c :: cs =>
    if ("\\cite\x7b".data).isPrefixOf (c :: cs) then
      match splitBrace ((c :: cs).drop 6) with
      | some (s, rem) => s :: citeMatchesFuel fuel rem
      | none => citeMatchesFuel fuel cs
    else if ("\\fullcite\x7b".data).isPrefixOf (c :: cs) then
      match splitBrace ((c :: cs).drop 10) with
      | some (s, rem) => s :: citeMatchesFuel fuel rem
      | none => citeMatchesFuel fuel cs
    else citeMatchesFuel fuel cs

/-- All regex matches (captured citation arguments) in a text. -/
def citeMatches (cs : List Char) : List String := citeMatchesFuel cs.length cs

/-- The body of the match loop in `latex_cites` (zo.py 66-70): a non-empty
argument is split on commas, each piece stripped and added to the set; an
empty argument only raises a warning.  The `Nat` component counts the
warnings issued. -/
def processMatch (acc : Finset String × Nat) (content : String) : Finset String × Nat :=
  if content = "" then (acc.1, acc.2 + 1)
  else (acc.1 ∪ ((pySplit ',' content).map pyStrip).toFinset, acc.2)

/-- Python `"".join(line.strip() for line in f)` (zo.py 65). -/
def joinStripped (lines : List String) : String := strConcat (lines.map pyStrip)

/-- `latex_cites` (zo.py 42-71) over the contents of the project's `.tex`
files (each file given as its list of lines; the directory walk itself is an
OS effect outside the embedding).  Returns the set of cited keys and the
number of empty-citation warnings. -/
def latex_cites (files : List (List String)) : Finset String × Nat :=
  files.foldl (fun acc f => (citeMatches (joinStripped f).data).foldl processMatch acc) (∅, 0)

/-- Specification-side view of the match loop: the keys contributed by a
list of captured arguments. -/
def citesFrom : List String → Finset String
  | [] => ∅
  | m :: ms => (if m = "" then ∅ else ((pySplit ',' m).map pyStrip).toFinset) ∪ citesFrom ms

/-- Specification-side view of the warnings: one per empty captured
argument. -/
def warnsFrom : List String → Nat
  | [] => 0
  | m :: ms => (if m = "" then 1 else 0) + warnsFrom ms

/-! ## Bibliography splitter `bib_strip` (zo.py 157-197) -/

/-- The key parsed from an entry's `@` line: `line.split('{')[1].split(',')[0].strip()`
(zo.py 182-183).  `none` models the `IndexError` Python raises when the line
has no `{`. -/
def parseEntryKey (line : String) : Option String :=
  match (pySplit '\x7b' line).get? 1 with
  | none => none
  | some s => some (pyStrip ((pySplit ',' s).headD ""))

/-- The line-by-line loop of `bib_strip` (zo.py 178-194).  `e` is the mutable
`entries` set, `a` the `added_entries` set, `c` the accumulated `child_bib`
text; `inB` records whether the previous line was consumed inside a block
(Python's inner `while`).  Inside a block a line is accumulated verbatim
unless its first non-blank character is `#`; the block ends at a blank line,
a line whose first non-blank character is `@`, or end of file, and is then
terminated with one `"\n"`.  A line starting (after stripping) with `@` is
looked up in `e`; a parse failure of its key is the Python `IndexError`,
modelled as `none`. -/
def bibStripAux : List String → Finset String → Finset String → String → Bool →
    Option (String × Finset String × Finset String)
  | [], e, a, c, inB => some (cond inB (c ++ "\n") c, a, e)
  | l :: rest, e, a, c, inB =>
    if inB = true ∧ pyStrip l ≠ "" ∧ pyFirst (pyStrip l) ≠ '@' then
      bibStripAux rest e a (if pyFirst (pyStrip l) ≠ '#' then c ++ l else c) true
    else if pyStrip l ≠ "" ∧ pyFirst (pyStrip l) = '@' then
      match parseEntryKey l with
      | none => none
      | some k =>
        if k ∈ e then
          bibStripAux rest (e.erase k) (insert k a) (cond inB (c ++ "\n") c ++ l) true
        else
          bibStripAux rest e a (cond inB (c ++ "\n") c) false
    else
      bibStripAux rest e a (cond inB (c ++ "\n") c) false

/-- `bib_strip` (zo.py 157-197): extract from the parent file (given as its
list of raw lines) the raw blocks of the requested entries.  Returns the
concatenated text, the set of added keys, and the set of keys that were not
found (Python returns the destructively consumed input set itself). -/
def bib_strip (lines : List String) (entries : Finset String) :
    Option (String × Finset String × Finset String) :=
  bibStripAux lines entries ∅ "" false

/-! ## `make` (zo.py 233-246) -/

/-- Modelled from the spec: `bib_nicknames` (zo.py 74-93) parses the child
`.bib` file with the external `bibtexparser` library, which is not part of
this repository's sources.  The spec's data-model invariant states that the
parsed-entries view and the raw-block view of a bibliography agree on the
set of keys, so after `make` appends raw blocks whose key set is `added`,
the child's parsed key set is the previous key set united with `added`. -/
def bib_nicknames_after_append (childNicks added : Finset String) : Finset String :=
  childNicks ∪ added

/-- `make` (zo.py 233-240), functionally: `cites` is `latex_cites(project)`,
`childNicks` is `bib_nicknames(child)`, `parent` the parent file's lines,
`childText` the child file's current text.  Computes the required set,
splits the parent, appends the result to the child.  Returns the new child
text, the child's new key set, and the added and missing key sets. -/
def make (cites childNicks : Finset String) (parent : List String) (childText : String) :
    Option (String × Finset String × Finset String × Finset String) :=
  match bib_strip parent (cites \ childNicks) with
  | none => none
  | some (t, A, M) => some (childText ++ t, bib_nicknames_after_append childNicks A, A, M)

/-! ## PDF and filename handling (zo.py 200-220) -/

/-- `find_pdfs` (zo.py 200-206): for every `*.pdf` file in the walk, the
filename cut at its first `.`.  The walk is modelled as the list of
filenames it encounters, in order. -/
def find_pdfs (files : List String) : List String :=
  (files.filter (fun fn => (".pdf".data).isSuffixOf fn.data)).map
    (fun fn => (pySplit '.' fn).headD "")

/-- Greedy backtracking match of `re.search("\[(.+)\]", ·)` at one position:
the text right after a `[`.  The segment before the first newline is
scanned; the capture extends to the last `]` in it that leaves a non-empty
capture (`.+` is greedy, `.` does not match newline). -/
def lastCloseIdx (seg : List Char) : Option Nat :=
  ((List.range seg.length).filter (fun j => decide (1 ≤ j ∧ seg.get? j = some ']'))).getLast?

/-- Attempt of the bracket regex just after an opening `[`. -/
def tryBracket (rest : List Char) : Option String :=
  match lastCloseIdx (rest.takeWhile (fun c => c ≠ '\n')) with
  | some j => some (String.mk ((rest.takeWhile (fun c => c ≠ '\n')).take j))
  | none => none

/-- Left-to-right scan of `re.search("\[(.+)\]", ·)`: first position whose
match attempt succeeds wins. -/
def bibnickSearch : List Char → Option String
  | [] => none
  | c :: rest =>
    if c = '[' then
      match tryBracket rest with
      | some g => some g
      | none => bibnickSearch rest
    else bibnickSearch rest

/-- `filename_to_bibnick` (zo.py 209-213): the content of a bracketed
`[...]` group when the regex matches, the whole filename otherwise. -/
def filename_to_bibnick (filename : String) : String :=
  match bibnickSearch filename.data with
  | some g => g
  | none => filename

/-- The test `bibnick in filename and filename.endswith(".pdf")`
(zo.py 219). -/
def pdfMatch (bibnick fn : String) : Bool :=
  strContainsAux bibnick.data fn.data && (".pdf".data).isSuffixOf fn.data

/-- `find_pdf_from_bibnick` (zo.py 216-220): the first file of the walk
whose name contains the key and ends in `.pdf`; `none` when there is no
such file (Python falls off the loop and returns `None`).  The walk is
modelled as the list of filenames in walk order; the `os.path.abspath`
decoration of the result is dropped. -/
def find_pdf_from_bibnick (bibnick : String) (files : List String) : Option String :=
  files.find? (pdfMatch bibnick)

/-! ## Reporting `_printer` (zo.py 223-230) -/

/-- `_printer` (zo.py 223-230): for a non-empty set, the header, an `=`
underline of the header's length, then the items of `sorted(things)`
numbered from 1, each on its own line; for an empty set, the empty string. -/
def _printer (things : Finset String) (msg : String) : String :=
  if 0 < things.card then
    ((things.sort (fun a b => a ≤ b)).enum).foldl
      (fun out p => out ++ toString (p.1 + 1) ++ ". " ++ p.2 ++ "\n")
      (msg ++ "\n" ++ String.mk (List.replicate msg.length '=') ++ "\n")
  else ""

/-! ## Helper lemmas -/

theorem insert_union_erase (k : String) (a e : Finset String) (hm : k ∈ e) :
    insert k a ∪ e.erase k = a ∪ e := by
  ext x
  simp only [Finset.mem_union, Finset.mem_insert, Finset.mem_erase]
  by_cases hx : x = k
  · subst hx
    simp [hm]
  · simp [hx]

theorem insert_inter_erase_empty (k : String) (a e : Finset String) (h : a ∩ e = ∅) :
    insert k a ∩ e.erase k = ∅ := by
  rw [Finset.eq_empty_iff_forall_not_mem] at h ⊢
  intro x hx
  rw [Finset.mem_inter, Finset.mem_insert, Finset.mem_erase] at hx
  obtain ⟨hka, hne, hxe⟩ := hx
  rcases hka with rfl | hxa
  · exact hne rfl
  · exact h x (Finset.mem_inter.2 ⟨hxa, hxe⟩)

/-- Invariant of the splitter's loop: the added and remaining sets always
partition the union of the initial added and remaining sets, and the
remaining set only shrinks. -/
theorem bibStripAux_inv (lines : List String) : ∀ (e a : Finset String) (c : String) (b : Bool)
    {t : String} {A M : Finset String}, bibStripAux lines e a c b = some (t, A, M) →
    A ∪ M = a ∪ e ∧ M ⊆ e ∧ (a ∩ e = ∅ → A ∩ M = ∅) := by
  induction lines with
  | nil =>
    intro e a c b t A M h
    simp only [bibStripAux, Option.some.injEq, Prod.mk.injEq] at h
    obtain ⟨-, rfl, rfl⟩ := h
    exact ⟨rfl, le_refl _, fun hd => hd⟩
  | cons l rest ih =>
    intro e a c b t A M h
    simp only [bibStripAux] at h
    by_cases h1 : b = true ∧ pyStrip l ≠ "" ∧ pyFirst (pyStrip l) ≠ '@'
    · rw [if_pos h1] at h
      exact ih _ _ _ _ h
    · rw [if_neg h1] at h
      by_cases h2 : pyStrip l ≠ "" ∧ pyFirst (pyStrip l) = '@'
      · rw [if_pos h2] at h
        cases hk : parseEntryKey l with
        | none => rw [hk] at h; simp only [] at h; cases h
        | some k =>
          rw [hk] at h
          simp only [] at h
          by_cases hm : k ∈ e
          · rw [if_pos hm] at h
            obtain ⟨hu, hs, hd⟩ := ih _ _ _ _ h
            refine ⟨?_, ?_, ?_⟩
            · rw [hu, insert_union_erase k a e hm]
            · exact hs.trans (Finset.erase_subset k e)
            · intro hae
              exact hd (insert_inter_erase_empty k a e hae)
          · rw [if_neg hm] at h
            exact ih _ _ _ _ h
      · rw [if_neg h2] at h
        exact ih _ _ _ _ h

/-- C2: for every invocation of `bib_strip` with required key set `R` that
returns (does not crash), the returned key sets satisfy
`added ∪ missing = R` and `added ∩ missing = ∅`. -/
theorem bib_strip_partition (lines : List String) (R : Finset String) (t : String)
    (A M : Finset String) (h : bib_strip lines R = some (t, A, M)) :
    A ∪ M = R ∧ A ∩ M = ∅ := by
  obtain ⟨hu, -, hd⟩ := bibStripAux_inv lines R ∅ "" false h
  exact ⟨by simpa using hu, hd (by simp)⟩

/-- Witness for C2 at a one-entry parent file with required set `{k}`. -/
theorem bib_strip_partition_witness :
    (insert "k" (∅ : Finset String)) ∪ ∅ = insert "k" ∅ ∧
    (insert "k" (∅ : Finset String)) ∩ ∅ = ∅ :=
  bib_strip_partition ["@a\x7bk,\n"] (insert "k" ∅) "@a\x7bk,\n\n" (insert "k" ∅) ∅ (by decide)

/-- Unfolding equation for the splitter loop at end of file. -/
theorem bibStripAux_nil (e a : Finset String) (c : String) (b : Bool) :
    bibStripAux [] e a c b = some (cond b (c ++ "\n") c, a, e) := rfl

/-- Unfolding equation for one step of the splitter loop. -/
theorem bibStripAux_cons (l : String) (rest : List String) (e a : Finset String) (c : String)
    (b : Bool) :
    bibStripAux (l :: rest) e a c b =
      if b = true ∧ pyStrip l ≠ "" ∧ pyFirst (pyStrip l) ≠ '@' then
        bibStripAux rest e a (if pyFirst (pyStrip l) ≠ '#' then c ++ l else c) true
      else if pyStrip l ≠ "" ∧ pyFirst (pyStrip l) = '@' then
        match parseEntryKey l with
        | none => none
        | some k =>
          if k ∈ e then
            bibStripAux rest (e.erase k) (insert k a) (cond b (c ++ "\n") c ++ l) true
          else
            bibStripAux rest e a (cond b (c ++ "\n") c) false
      else
        bibStripAux rest e a (cond b (c ++ "\n") c) false := rfl

/-- Running the splitter's loop in block mode over lines that are neither
blank nor `@` lines accumulates them verbatim, dropping `#` lines. -/
theorem bibStripAux_inBlock (body : List String) : ∀ (rest : List String)
    (e a : Finset String) (c : String),
    (∀ l ∈ body, pyStrip l ≠ "" ∧ pyFirst (pyStrip l) ≠ '@') →
    bibStripAux (body ++ rest) e a c true =
      bibStripAux rest e a
        (c ++ strConcat (body.filter (fun l => pyFirst (pyStrip l) ≠ '#'))) true := by
  induction body with
  | nil =>
    intro rest e a c _
    simp [strConcat, String.append_empty]
  | cons l body ih =>
    intro rest e a c hb
    obtain ⟨h1, h2⟩ := hb l (List.mem_cons_self l body)
    rw [List.cons_append, bibStripAux_cons, if_pos ⟨rfl, h1, h2⟩,
      ih rest e a _ (fun x hx => hb x (List.mem_cons_of_mem l hx))]
    congr 1
    by_cases h3 : pyFirst (pyStrip l) ≠ '#'
    · simp [List.filter_cons, h3, strConcat, String.append_assoc]
    · simp [List.filter_cons, h3, strConcat]

/-- Leaving block mode at a stopping line (blank or `@`): the pending block
terminator `"\n"` is appended and the line is reconsidered in scan mode. -/
theorem bibStripAux_blockExit (r : String) (rs : List String) (e a : Finset String) (c : String)
    (hr : pyStrip r = "" ∨ pyFirst (pyStrip r) = '@') :
    bibStripAux (r :: rs) e a c true = bibStripAux (r :: rs) e a (c ++ "\n") false := by
  have hcond : ¬ (true = true ∧ pyStrip r ≠ "" ∧ pyFirst (pyStrip r) ≠ '@') := by
    rintro ⟨-, hne, h4⟩
    rcases hr with h | h
    · exact hne h
    · exact h4 h
  have hcond' : ¬ (false = true ∧ pyStrip r ≠ "" ∧ pyFirst (pyStrip r) ≠ '@') := by
    rintro ⟨hf, -⟩
    cases hf
  rw [bibStripAux_cons, bibStripAux_cons, if_neg hcond, if_neg hcond']
  rfl

/-- Core block-extraction lemma: a matching `@` line removes its key from
the required set, records it as added, and its block is accumulated
verbatim (minus `#` lines) up to the next blank line, `@` line or end of
file, then terminated with one `"\n"`. -/
theorem bibStripAux_block (header : String) (body rest : List String)
    (e a : Finset String) (c : String) (k : String)
    (hh1 : pyStrip header ≠ "") (hh2 : pyFirst (pyStrip header) = '@')
    (hk : parseEntryKey header = some k) (hmem : k ∈ e)
    (hbody : ∀ l ∈ body, pyStrip l ≠ "" ∧ pyFirst (pyStrip l) ≠ '@')
    (hrest : rest = [] ∨ ∃ r rs, rest = r :: rs ∧ (pyStrip r = "" ∨ pyFirst (pyStrip r) = '@')) :
    bibStripAux (header :: (body ++ rest)) e a c false =
      bibStripAux rest (e.erase k) (insert k a)
        (c ++ header ++ strConcat (body.filter (fun l => pyFirst (pyStrip l) ≠ '#')) ++ "\n")
        false := by
  have hcond : ¬ (false = true ∧ pyStrip header ≠ "" ∧ pyFirst (pyStrip header) ≠ '@') := by
    rintro ⟨hf, -⟩
    cases hf
  rw [bibStripAux_cons, if_neg hcond, if_pos ⟨hh1, hh2⟩, hk]
  simp only [cond, if_pos hmem]
  rw [bibStripAux_inBlock body rest _ _ _ hbody]
  rcases hrest with rfl | ⟨r, rs, rfl, hr⟩
  · rw [bibStripAux_nil, bibStripAux_nil]
    rfl
  · rw [bibStripAux_blockExit r rs _ _ _ hr]

/-- C1 counterexample: the claim says accumulation of a matched block runs
until the next `@` line or end of file, but the code also stops at the first
blank line.  In the parent `["@a{k,\n", "x\n", "\n", "y\n"]` the line
`"y\n"` lies between the matched `@` line and end of file with no further
`@` line, so the claim mandates the output text `"@a{k,\nx\n\ny\n\n"`; the
code produces `"@a{k,\nx\n\n"`, which omits `"y\n"`. -/
theorem bib_strip_blank_stop_cex :
    bib_strip ["@a\x7bk,\n", "x\n", "\n", "y\n"] (insert "k" ∅) =
      some ("@a\x7bk,\nx\n\n", insert "k" ∅, ∅) ∧
    ("@a\x7bk,\nx\n\n" : String) ≠ "@a\x7bk,\nx\n\ny\n\n" :=
  ⟨by decide, by decide⟩

/-- C1 (amended): on a line whose stripped form starts with `@` and whose
parsed key `k` is in the required set, `bib_strip` removes `k` from the
required set, adds it to the added set, and accumulates the block's raw
lines verbatim — skipping any line whose first non-whitespace character is
`#` — until the next line that is blank (only whitespace) or begins (after
stripping) with `@`, or the end of the file, terminating the accumulated
block with one `"\n"`; the extracted lines keep their original bytes. -/
theorem bib_strip_block_extraction (header : String) (body rest : List String)
    (R : Finset String) (k : String)
    (hh1 : pyStrip header ≠ "") (hh2 : pyFirst (pyStrip header) = '@')
    (hk : parseEntryKey header = some k) (hmem : k ∈ R)
    (hbody : ∀ l ∈ body, pyStrip l ≠ "" ∧ pyFirst (pyStrip l) ≠ '@')
    (hrest : rest = [] ∨ ∃ r rs, rest = r :: rs ∧ (pyStrip r = "" ∨ pyFirst (pyStrip r) = '@')) :
    bib_strip (header :: (body ++ rest)) R =
      bibStripAux rest (R.erase k) (insert k ∅)
        (header ++ strConcat (body.filter (fun l => pyFirst (pyStrip l) ≠ '#')) ++ "\n")
        false := by
  unfold bib_strip
  rw [bibStripAux_block header body rest R ∅ "" k hh1 hh2 hk hmem hbody hrest]
  simp [String.empty_append]

/-- Witness for the amended C1 on a concrete parent with a blank stopping
line. -/
theorem bib_strip_block_extraction_witness :
    bib_strip ("@a\x7bk,\n" :: (["x\n"] ++ ["\n", "y\n"])) (insert "k" ∅) =
      bibStripAux ["\n", "y\n"] ((insert "k" (∅ : Finset String)).erase "k") (insert "k" ∅)
        ("@a\x7bk,\n" ++ strConcat (["x\n"].filter (fun l => pyFirst (pyStrip l) ≠ '#')) ++ "\n")
        false :=
  bib_strip_block_extraction "@a\x7bk,\n" ["x\n"] ["\n", "y\n"] (insert "k" ∅) "k"
    (by decide) (by decide) (by decide) (by decide)
    (by decide)
    (Or.inr ⟨"\n", ["y\n"], rfl, Or.inl (by decide)⟩)

/-- Scan mode over lines none of which is an `@` line with a key still in
the required set: nothing is added, nothing changes. -/
theorem bibStripAux_noMatch (lines : List String) : ∀ (e a : Finset String) (c : String),
    (∀ l ∈ lines, pyStrip l ≠ "" → pyFirst (pyStrip l) = '@' →
      ∃ k, parseEntryKey l = some k ∧ k ∉ e) →
    bibStripAux lines e a c false = some (c, a, e) := by
  induction lines with
  | nil =>
    intro e a c _
    rw [bibStripAux_nil]
    rfl
  | cons l rest ih =>
    intro e a c h
    have hcond : ¬ (false = true ∧ pyStrip l ≠ "" ∧ pyFirst (pyStrip l) ≠ '@') := by
      rintro ⟨hf, -⟩
      cases hf
    rw [bibStripAux_cons, if_neg hcond]
    by_cases h2 : pyStrip l ≠ "" ∧ pyFirst (pyStrip l) = '@'
    · obtain ⟨k, hk, hnk⟩ := h l (List.mem_cons_self l rest) h2.1 h2.2
      rw [if_pos h2, hk]
      simp only [if_neg hnk]
      exact ih e a c (fun x hx => h x (List.mem_cons_of_mem l hx))
    · rw [if_neg h2]
      exact ih e a c (fun x hx => h x (List.mem_cons_of_mem l hx))

/-- Every key left missing by a successful run of the splitter is the parsed
key of no `@` line of the file (each `@` line is examined in every run, and
its key is parsed successfully, else the run would have crashed). -/
theorem bibStripAux_missing (lines : List String) : ∀ (e a : Finset String) (c : String)
    (b : Bool) {t : String} {A M : Finset String},
    bibStripAux lines e a c b = some (t, A, M) →
    ∀ l ∈ lines, pyStrip l ≠ "" → pyFirst (pyStrip l) = '@' →
      ∃ k, parseEntryKey l = some k ∧ k ∉ M := by
  induction lines with
  | nil =>
    intro e a c b t A M _ l hl
    cases hl
  | cons l rest ih =>
    intro e a c b t A M h l' hl' hs hf
    rw [bibStripAux_cons] at h
    by_cases h1 : b = true ∧ pyStrip l ≠ "" ∧ pyFirst (pyStrip l) ≠ '@'
    · rw [if_pos h1] at h
      rcases List.mem_cons.1 hl' with rfl | hl'
      · exact absurd hf h1.2.2
      · exact ih _ _ _ _ h l' hl' hs hf
    · rw [if_neg h1] at h
      by_cases h2 : pyStrip l ≠ "" ∧ pyFirst (pyStrip l) = '@'
      · rw [if_pos h2] at h
        cases hk : parseEntryKey l with
        | none => rw [hk] at h; simp only [] at h; cases h
        | some k =>
          rw [hk] at h
          simp only [] at h
          by_cases hm : k ∈ e
          · rw [if_pos hm] at h
            rcases List.mem_cons.1 hl' with rfl | hl'
            · refine ⟨k, hk, fun hkM => ?_⟩
              obtain ⟨-, hsub, -⟩ := bibStripAux_inv rest _ _ _ _ h
              exact Finset.not_mem_erase k e (hsub hkM)
            · exact ih _ _ _ _ h l' hl' hs hf
          · rw [if_neg hm] at h
            rcases List.mem_cons.1 hl' with rfl | hl'
            · refine ⟨k, hk, fun hkM => ?_⟩
              obtain ⟨-, hsub, -⟩ := bibStripAux_inv rest _ _ _ _ h
              exact hm (hsub hkM)
            · exact ih _ _ _ _ h l' hl' hs hf
      · rw [if_neg h2] at h
        rcases List.mem_cons.1 hl' with rfl | hl'
        · exact absurd ⟨hs, hf⟩ h2
        · exact ih _ _ _ _ h l' hl' hs hf

/-- C4: when the parent contains two blocks whose parsed key is the same
`k ∈ R`, `bib_strip` extracts only the first: the returned text is exactly
the first block (its header plus its non-`#` body lines plus the `"\n"`
terminator), `k` is added once, and the second block contributes nothing,
because `k` is removed from the required set on its first match. -/
theorem bib_strip_duplicate_first (h1 h2 : String) (b1 b2 : List String)
    (R : Finset String) (k : String)
    (hh1a : pyStrip h1 ≠ "") (hh1b : pyFirst (pyStrip h1) = '@')
    (hk1 : parseEntryKey h1 = some k)
    (hh2a : pyStrip h2 ≠ "") (hh2b : pyFirst (pyStrip h2) = '@')
    (hk2 : parseEntryKey h2 = some k)
    (hmem : k ∈ R)
    (hb1 : ∀ l ∈ b1, pyStrip l ≠ "" ∧ pyFirst (pyStrip l) ≠ '@')
    (hb2 : ∀ l ∈ b2, ¬ (pyStrip l ≠ "" ∧ pyFirst (pyStrip l) = '@')) :
    bib_strip (h1 :: (b1 ++ h2 :: b2)) R =
      some (h1 ++ strConcat (b1.filter (fun l => pyFirst (pyStrip l) ≠ '#')) ++ "\n",
        insert k ∅, R.erase k) := by
  unfold bib_strip
  rw [bibStripAux_block h1 b1 (h2 :: b2) R ∅ "" k hh1a hh1b hk1 hmem hb1
      (Or.inr ⟨h2, b2, rfl, Or.inr hh2b⟩)]
  have hcond : ¬ (false = true ∧ pyStrip h2 ≠ "" ∧ pyFirst (pyStrip h2) ≠ '@') := by
    rintro ⟨hf, -⟩
    cases hf
  rw [bibStripAux_cons, if_neg hcond, if_pos ⟨hh2a, hh2b⟩, hk2]
  simp only [cond, if_neg (Finset.not_mem_erase k R)]
  rw [bibStripAux_noMatch b2 (R.erase k) (insert k ∅) _
      (fun l hl hs hf => absurd ⟨hs, hf⟩ (hb2 l hl))]
  simp [String.empty_append]

/-- Witness for C4: a parent with two blocks keyed `k`; only the first is
extracted and `k` is missing from the returned missing set. -/
theorem bib_strip_duplicate_first_witness :
    bib_strip ("@a\x7bk,\n" :: (["x\n"] ++ "@b\x7bk,\n" :: ["z\n"])) (insert "k" ∅) =
      some ("@a\x7bk,\n" ++ strConcat (["x\n"].filter (fun l => pyFirst (pyStrip l) ≠ '#')) ++ "\n",
        insert "k" ∅, (insert "k" (∅ : Finset String)).erase "k") :=
  bib_strip_duplicate_first "@a\x7bk,\n" "@b\x7bk,\n" ["x\n"] ["z\n"] (insert "k" ∅) "k"
    (by decide) (by decide) (by decide) (by decide) (by decide) (by decide) (by decide)
    (by decide) (by decide)

/-- C3 counterexample: with a cited key absent from the parent, the first
run of `make` appends nothing and adds nothing, so the second run's required
set (cited keys minus the child's keys, here `{"k"} \ ∅`) is the non-empty
missing set — the claim's assertion that it is empty is false.  (The child
text is still unchanged on the second run, as the amended claim states.) -/
theorem make_required_nonempty_cex :
    make (insert "k" ∅) ∅ [] "" = some ("", ∅, ∅, insert "k" ∅) ∧
    (insert "k" (∅ : Finset String)) \ ∅ ≠ ∅ :=
  ⟨by decide, by decide⟩

/-- C3 (amended): running `make` twice on the same project, parent and
child, with no intervening change other than the first run's own append,
leaves the child bibliography unchanged on the second run: the second run's
required set (cited keys minus the child's keys) equals the first run's
missing set — empty exactly when every required key was found in the parent
— and the splitter finds none of those keys in the parent again, so the
text appended to the child on the second run is empty and nothing is
added. -/
theorem make_idempotent (cites nicks : Finset String) (parent : List String)
    (child c1 : String) (n1 A M : Finset String)
    (h : make cites nicks parent child = some (c1, n1, A, M)) :
    cites \ n1 = M ∧ make cites n1 parent c1 = some (c1, n1, ∅, M) := by
  unfold make at h
  cases hbs : bib_strip parent (cites \ nicks) with
  | none => rw [hbs] at h; simp only [] at h; cases h
  | some r =>
    obtain ⟨t, A', M'⟩ := r
    rw [hbs] at h
    simp only [Option.some.injEq, Prod.mk.injEq, bib_nicknames_after_append] at h
    obtain ⟨rfl, rfl, rfl, rfl⟩ := h
    obtain ⟨hu, -, hd⟩ := bibStripAux_inv parent (cites \ nicks) ∅ "" false hbs
    have hu' : A' ∪ M' = cites \ nicks := by simpa using hu
    have hd' : A' ∩ M' = ∅ := hd (by simp)
    have hmemu : ∀ x, (x ∈ A' ∨ x ∈ M') ↔ (x ∈ cites ∧ x ∉ nicks) := by
      intro x
      rw [← Finset.mem_union, hu', Finset.mem_sdiff]
    have hmemd : ∀ x, ¬ (x ∈ A' ∧ x ∈ M') := by
      intro x hx
      have hxm := Finset.mem_inter.2 hx
      rw [hd'] at hxm
      exact Finset.not_mem_empty x hxm
    have hreq : cites \ (nicks ∪ A') = M' := by
      ext x
      have h1 := hmemu x
      have h2 := hmemd x
      simp only [Finset.mem_sdiff, Finset.mem_union]
      tauto
    have hno : bib_strip parent M' = some ("", ∅, M') := by
      apply bibStripAux_noMatch
      intro l hl hs hf
      exact bibStripAux_missing parent _ _ _ _ hbs l hl hs hf
    refine ⟨hreq, ?_⟩
    unfold make
    rw [hreq, hno]
    simp only [bib_nicknames_after_append]
    rw [String.append_empty, Finset.union_empty]

/-- Witness for the amended C3: first run extracts the one required entry,
second run appends nothing and changes nothing. -/
theorem make_idempotent_witness :
    (insert "k" (∅ : Finset String)) \ (insert "k" ∅) = ∅ ∧
    make (insert "k" ∅) (insert "k" ∅) ["@a\x7bk,\n", "t\n"] "@a\x7bk,\nt\n\n" =
      some ("@a\x7bk,\nt\n\n", insert "k" ∅, ∅, ∅) :=
  make_idempotent (insert "k" ∅) ∅ ["@a\x7bk,\n", "t\n"] "" "@a\x7bk,\nt\n\n"
    (insert "k" ∅) (insert "k" ∅) ∅ (by decide)

/-- The match loop of the scanner, characterized: the final set is the
initial set united with the keys of the non-empty arguments, and the final
warning count is the initial count plus one per empty argument. -/
theorem processMatch_foldl (ms : List String) : ∀ (S : Finset String) (n : Nat),
    ms.foldl processMatch (S, n) = (S ∪ citesFrom ms, n + warnsFrom ms) := by
  induction ms with
  | nil =>
    intro S n
    simp [citesFrom, warnsFrom]
  | cons m ms ih =>
    intro S n
    simp only [List.foldl_cons, processMatch]
    by_cases hm : m = ""
    · rw [if_pos hm, ih]
      simp only [citesFrom, warnsFrom, if_pos hm, Prod.mk.injEq]
      constructor
      · rw [Finset.empty_union]
      · omega
    · rw [if_neg hm, ih]
      simp only [citesFrom, warnsFrom, if_neg hm, Prod.mk.injEq]
      constructor
      · rw [Finset.union_assoc]
      · omega

/-- `latex_cites` on a one-file project, in terms of the match list. -/
theorem latex_cites_single (lines : List String) :
    latex_cites [lines] = (citesFrom (citeMatches (joinStripped lines).data),
      warnsFrom (citeMatches (joinStripped lines).data)) := by
  simp only [latex_cites, List.foldl_cons, List.foldl_nil]
  rw [processMatch_foldl]
  simp

/-- Empty arguments contribute nothing to the key set. -/
theorem citesFrom_filter_ne (ms : List String) :
    citesFrom ms = citesFrom (ms.filter (fun c => c ≠ "")) := by
  induction ms with
  | nil => rfl
  | cons m ms ih =>
    by_cases hm : m = ""
    · have hf : (m :: ms).filter (fun c => c ≠ "") = ms.filter (fun c => c ≠ "") := by
        simp [List.filter_cons, hm]
      rw [hf]
      simp only [citesFrom, if_pos hm, Finset.empty_union]
      exact ih
    · have hf : (m :: ms).filter (fun c => c ≠ "") = m :: ms.filter (fun c => c ≠ "") := by
        simp [List.filter_cons, hm]
      rw [hf]
      simp only [citesFrom, if_neg hm]
      rw [ih]

/-- At least one warning per empty argument present. -/
theorem warnsFrom_pos (ms : List String) (h : "" ∈ ms) : 1 ≤ warnsFrom ms := by
  induction ms with
  | nil => cases h
  | cons m ms ih =>
    rcases List.mem_cons.1 h with hm | hm
    · simp [warnsFrom, ← hm]
    · have := ih hm
      simp only [warnsFrom]
      omega

/-- Every stripped comma piece of a non-empty argument lands in the key
set. -/
theorem citesFrom_piece (ms : List String) (c p : String) (hc : c ∈ ms) (hne : c ≠ "")
    (hp : p ∈ (pySplit ',' c).map pyStrip) : p ∈ citesFrom ms := by
  induction ms with
  | nil => cases hc
  | cons m ms ih =>
    rcases List.mem_cons.1 hc with rfl | hm
    · simp only [citesFrom, if_neg hne]
      exact Finset.mem_union_left _ (List.mem_toFinset.2 hp)
    · simp only [citesFrom]
      exact Finset.mem_union_right _ (ih hm)

/-- C5: a citation command with an empty argument list raises a warning and
contributes no key: the scanner's key set is the one computed from the
non-empty arguments alone (in particular the empty invocation adds no
empty-string key), and scanning continues over the remaining matches. -/
theorem latex_cites_empty_citation (lines : List String)
    (h : "" ∈ citeMatches (joinStripped lines).data) :
    1 ≤ (latex_cites [lines]).2 ∧
    (latex_cites [lines]).1 =
      citesFrom ((citeMatches (joinStripped lines).data).filter (fun c => c ≠ "")) := by
  rw [latex_cites_single]
  exact ⟨warnsFrom_pos _ h, citesFrom_filter_ne _⟩

/-- Witness for C5: the project `\cite{}\cite{a}` warns once and still
collects `a`. -/
theorem latex_cites_empty_citation_witness :
    1 ≤ (latex_cites [["\\cite\x7b\x7d\\cite\x7ba\x7d"]]).2 ∧
    (latex_cites [["\\cite\x7b\x7d\\cite\x7ba\x7d"]]).1 =
      citesFrom ((citeMatches
        (joinStripped ["\\cite\x7b\x7d\\cite\x7ba\x7d"]).data).filter (fun c => c ≠ "")) :=
  latex_cites_empty_citation ["\\cite\x7b\x7d\\cite\x7ba\x7d"] (by decide)

/-- C9: for a citation command whose non-empty argument list has a
trailing, leading or doubled comma, every stripped comma piece — including
the empty string — is added to the returned set with no non-emptiness
check. -/
theorem latex_cites_comma_piece (lines : List String) (c p : String)
    (hc : c ∈ citeMatches (joinStripped lines).data) (hne : c ≠ "")
    (hp : p ∈ (pySplit ',' c).map pyStrip) :
    p ∈ (latex_cites [lines]).1 := by
  rw [latex_cites_single]
  exact citesFrom_piece _ c p hc hne hp

/-- Witness for C9: `\cite{a,}` puts the empty string into the key set. -/
theorem latex_cites_comma_piece_witness :
    "" ∈ (latex_cites [["\\cite\x7ba,\x7d"]]).1 :=
  latex_cites_comma_piece ["\\cite\x7ba,\x7d"] "a," "" (by decide) (by decide) (by decide)

/-- Setting a key makes it found with the new value. -/
theorem dictFind_dictSet_self (d : List (String × String)) (k v : String) :
    dictFind (dictSet d k v) k = some v := by
  induction d with
  | nil => simp [dictSet, dictFind]
  | cons p rest ih =>
    by_cases hp : p.1 = k
    · simp [dictSet, hp, dictFind]
    · simp [dictSet, hp, dictFind, ih]

/-- Setting a key leaves every other key's lookup unchanged. -/
theorem dictFind_dictSet_ne (d : List (String × String)) (k v u : String) (hne : u ≠ k) :
    dictFind (dictSet d k v) u = dictFind d u := by
  have hku : ¬ k = u := fun h => hne h.symm
  induction d with
  | nil => simp [dictSet, dictFind, hku]
  | cons p rest ih =>
    by_cases hp : p.1 = k
    · simp only [dictSet, if_pos hp, dictFind, if_neg hku]
      rw [if_neg (fun h => hku (hp.symm.trans h))]
    · simp only [dictSet, if_neg hp, dictFind]
      by_cases hu : p.1 = u
      · rw [if_pos hu, if_pos hu]
      · rw [if_neg hu, if_neg hu]
        exact ih

/-- The filling loop of `bib_lookup_many` never overwrites a field that
already has a value. -/
theorem fillStep_foldl_preserve (what : List String) : ∀ (r : List (String × String))
    (u v : String), dictFind r u = some v →
    dictFind (what.foldl fillStep r) u = some v := by
  induction what with
  | nil =>
    intro r u v h
    exact h
  | cons w what ih =>
    intro r u v h
    simp only [List.foldl_cons]
    apply ih
    unfold fillStep
    cases hw : dictFind r w with
    | some x => exact h
    | none =>
      by_cases huw : u = w
      · subst huw
        rw [h] at hw
        cases hw
      · rw [dictFind_dictSet_ne _ _ _ _ huw]
        exact h

/-- The filling loop gives every requested field that is still absent the
empty string. -/
theorem fillStep_foldl_sets (what : List String) : ∀ (r : List (String × String)) (u : String),
    u ∈ what → dictFind r u = none →
    dictFind (what.foldl fillStep r) u = some "" := by
  induction what with
  | nil =>
    intro r u h
    cases h
  | cons w what ih =>
    intro r u hu hnone
    simp only [List.foldl_cons]
    by_cases huw : u = w
    · subst huw
      have hset : dictFind (fillStep r u) u = some "" := by
        unfold fillStep
        rw [hnone]
        exact dictFind_dictSet_self r u ""
      exact fillStep_foldl_preserve what _ _ _ hset
    · rcases List.mem_cons.1 hu with h | h
      · exact absurd h huw
      · apply ih _ _ h
        unfold fillStep
        cases hw : dictFind r w with
        | some x => exact hnone
        | none =>
          rw [dictFind_dictSet_ne _ _ _ _ huw]
          exact hnone

/-- After the filling loop every requested field has some value. -/
theorem fillStep_foldl_total (what : List String) (r : List (String × String)) (u : String)
    (hu : u ∈ what) : ∃ v, dictFind (what.foldl fillStep r) u = some v := by
  cases hr : dictFind r u with
  | some v => exact ⟨v, fillStep_foldl_preserve what r u v hr⟩
  | none => exact ⟨"", fillStep_foldl_sets what r u hu hr⟩

/-- The collecting loop only ever sets fields present in the entry. -/
theorem collectStep_foldl_absent (entry : List (String × String)) (what : List String)
    (w : String) (habs : dictFind entry w = none) : ∀ (r : List (String × String)),
    dictFind r w = none → dictFind (what.foldl (collectStep entry) r) w = none := by
  induction what with
  | nil =>
    intro r h
    exact h
  | cons u what ih =>
    intro r h
    simp only [List.foldl_cons]
    apply ih
    unfold collectStep
    cases hu : dictFind entry u with
    | none => exact h
    | some v =>
      by_cases hwu : w = u
      · subst hwu
        rw [habs] at hu
        cases hu
      · rw [dictFind_dictSet_ne _ _ _ _ hwu]
        exact h

/-- C6: for every parsed bibliography, entry and field: the single-field
lookup `bib_lookup` returns `none` when the requested field is absent from
the entry, while the batch lookup `bib_lookup_many` maps every requested
absent field to the explicit empty string, and its result carries a value
for every requested field. -/
theorem bib_lookup_absent_field (db : List (String × List (String × String)))
    (bibnick : String) (what : List String) (w : String) (entry : List (String × String))
    (hentry : dictFind db bibnick = some entry) (hw : w ∈ what)
    (habs : dictFind entry w = none) :
    bib_lookup db bibnick w = none ∧
    dictFind (bib_lookup_many db bibnick what) w = some "" ∧
    ∀ u ∈ what, ∃ v, dictFind (bib_lookup_many db bibnick what) u = some v := by
  refine ⟨?_, ?_, ?_⟩
  · unfold bib_lookup
    rw [hentry]
    simp only []
    rw [habs]
  · unfold bib_lookup_many
    rw [hentry]
    simp only []
    exact fillStep_foldl_sets what _ w hw (collectStep_foldl_absent entry what w habs [] rfl)
  · intro u hu
    unfold bib_lookup_many
    rw [hentry]
    simp only []
    exact fillStep_foldl_total what _ u hu

/-- Witness for C6 on a one-entry database missing the `year` field. -/
theorem bib_lookup_absent_field_witness :
    bib_lookup [("a", [("title", "T")])] "a" "year" = none ∧
    dictFind (bib_lookup_many [("a", [("title", "T")])] "a" ["title", "year"]) "year" =
      some "" := by
  have h := bib_lookup_absent_field [("a", [("title", "T")])] "a" ["title", "year"] "year"
    [("title", "T")] (by decide) (by decide) (by decide)
  exact ⟨h.1, h.2.1⟩

/-- Unfolding equation for one step of the bracket search. -/
theorem bibnickSearch_cons (c : Char) (rest : List Char) :
    bibnickSearch (c :: rest) =
      if c = '[' then
        match tryBracket rest with
        | some g => some g
        | none => bibnickSearch rest
      else bibnickSearch rest := rfl

/-- A successful `lastCloseIdx` names a `]` at an index at least 1 inside
the segment. -/
theorem lastCloseIdx_spec (seg : List Char) (j : Nat) (h : lastCloseIdx seg = some j) :
    1 ≤ j ∧ j < seg.length ∧ seg.get? j = some ']' := by
  unfold lastCloseIdx at h
  have hmem : j ∈ (List.range seg.length).filter
      (fun i => decide (1 ≤ i ∧ seg.get? i = some ']')) := by
    obtain ⟨hl, heq⟩ := List.mem_getLast?_eq_getLast (Option.mem_def.2 h)
    rw [heq]
    exact List.getLast_mem hl
  rw [List.mem_filter, List.mem_range] at hmem
  obtain ⟨hrange, hp⟩ := hmem
  have hprop := of_decide_eq_true hp
  exact ⟨hprop.1, hrange, hprop.2⟩

/-- `lastCloseIdx` succeeds as soon as some `]` sits at an index at least
1. -/
theorem lastCloseIdx_isSome (seg : List Char) (j : Nat) (hj1 : 1 ≤ j)
    (hj : seg.get? j = some ']') : ∃ i, lastCloseIdx seg = some i := by
  have hlen : j < seg.length := (List.get?_eq_some.1 hj).1
  have hmem : j ∈ (List.range seg.length).filter
      (fun i => decide (1 ≤ i ∧ seg.get? i = some ']')) := by
    rw [List.mem_filter, List.mem_range]
    exact ⟨hlen, decide_eq_true ⟨hj1, hj⟩⟩
  unfold lastCloseIdx
  exact Option.isSome_iff_exists.mp ((List.getLast?_isSome).2 (List.ne_nil_of_mem hmem))

/-- Soundness of a bracket-match attempt: the capture is non-empty, free of
newlines, and the input right after the `[` is capture, `]`, remainder. -/
theorem tryBracket_some (rest : List Char) (g : String) (h : tryBracket rest = some g) :
    g.data ≠ [] ∧ '\n' ∉ g.data ∧ ∃ q, rest = g.data ++ ']' :: q := by
  unfold tryBracket at h
  set seg := rest.takeWhile (fun c => c ≠ '\n') with hsegdef
  cases hj : lastCloseIdx seg with
  | none => rw [hj] at h; cases h
  | some j =>
    rw [hj] at h
    simp only [Option.some.injEq] at h
    obtain ⟨hj1, hjlen, hjget⟩ := lastCloseIdx_spec _ j hj
    have hdata : g.data = seg.take j := by
      rw [← h]
    refine ⟨?_, ?_, ?_⟩
    · rw [hdata]
      have hlen : (seg.take j).length = j := List.length_take_of_le (le_of_lt hjlen)
      intro hnil
      rw [hnil] at hlen
      simp at hlen
      omega
    · rw [hdata]
      intro hmem
      have hmem' := List.take_subset j _ hmem
      have := List.mem_takeWhile_imp (l := rest) (by rw [← hsegdef]; exact hmem')
      exact absurd rfl (of_decide_eq_true this)
    · obtain ⟨t, ht⟩ : seg <+: rest := by
        rw [hsegdef]
        exact List.takeWhile_prefix _
      have hlt := (List.get?_eq_some.1 hjget).1
      have hgetv : seg.get ⟨j, hlt⟩ = ']' := by
        have hgg := List.get?_eq_get hlt
        rw [hgg] at hjget
        exact Option.some.inj hjget
      have hsplit : seg = seg.take j ++ ']' :: seg.drop (j + 1) := by
        conv_lhs => rw [← List.take_append_drop j seg]
        rw [List.drop_eq_get_cons hlt, hgetv]
      refine ⟨seg.drop (j + 1) ++ t, ?_⟩
      rw [hdata]
      calc rest = seg ++ t := ht.symm
        _ = (seg.take j ++ ']' :: seg.drop (j + 1)) ++ t := by rw [← hsplit]
        _ = seg.take j ++ ']' :: (seg.drop (j + 1) ++ t) := by
            simp [List.append_assoc]

/-- In `c ++ ']' :: q` with `c` non-empty and newline-free, the segment
before the first newline has a `]` at index `c.length`. -/
theorem takeWhile_close_at (c : List Char) : ∀ (q : List Char), '\n' ∉ c →
    ((c ++ ']' :: q).takeWhile (fun x => x ≠ '\n')).get? c.length = some ']' := by
  induction c with
  | nil =>
    intro q _
    simp [List.takeWhile_cons]
  | cons a c ih =>
    intro q hnl
    have ha : a ≠ '\n' := fun h => hnl (h ▸ List.mem_cons_self a c)
    have hq := ih q (fun h => hnl (List.mem_cons_of_mem a h))
    simp only [List.cons_append, List.takeWhile_cons, List.length_cons]
    simp only [ha, decide_not, decide_eq_true_eq]
    simpa [ha] using hq

/-- Completeness of a bracket-match attempt: a well-formed closing exists,
so the attempt succeeds. -/
theorem tryBracket_complete (c q : List Char) (hne : c ≠ []) (hnl : '\n' ∉ c) :
    ∃ g, tryBracket (c ++ ']' :: q) = some g := by
  have hget := takeWhile_close_at c q hnl
  have hj1 : 1 ≤ c.length := by
    cases c with
    | nil => exact absurd rfl hne
    | cons _ _ => simp
  obtain ⟨i, hi⟩ := lastCloseIdx_isSome _ c.length hj1 hget
  unfold tryBracket
  rw [hi]
  exact ⟨_, rfl⟩

/-- Soundness of the regex search: a returned capture really is the content
of a bracketed group of the input. -/
theorem bibnickSearch_sound (cs : List Char) : ∀ (g : String), bibnickSearch cs = some g →
    g.data ≠ [] ∧ '\n' ∉ g.data ∧ ∃ p q, cs = p ++ '[' :: (g.data ++ ']' :: q) := by
  induction cs with
  | nil =>
    intro g h
    cases h
  | cons c rest ih =>
    intro g h
    rw [bibnickSearch_cons] at h
    by_cases hc : c = '['
    · rw [if_pos hc] at h
      cases ht : tryBracket rest with
      | some g' =>
        rw [ht] at h
        simp only [Option.some.injEq] at h
        subst h
        obtain ⟨h1, h2, q, hq⟩ := tryBracket_some rest g' ht
        exact ⟨h1, h2, [], q, by rw [hc, hq, List.nil_append]⟩
      | none =>
        rw [ht] at h
        obtain ⟨h1, h2, p, q, hp⟩ := ih g h
        exact ⟨h1, h2, c :: p, q, by rw [hp, List.cons_append]⟩
    · rw [if_neg hc] at h
      obtain ⟨h1, h2, p, q, hp⟩ := ih g h
      exact ⟨h1, h2, c :: p, q, by rw [hp, List.cons_append]⟩

/-- Completeness of the regex search: if the input contains a bracketed
group with non-empty newline-free content, the search returns a capture. -/
theorem bibnickSearch_complete (cs : List Char) : ∀ (p c q : List Char), c ≠ [] → '\n' ∉ c →
    cs = p ++ '[' :: (c ++ ']' :: q) → ∃ g, bibnickSearch cs = some g := by
  induction cs with
  | nil =>
    intro p c q _ _ h
    cases p <;> simp at h
  | cons x rest ih =>
    intro p c q hne hnl h
    cases p with
    | nil =>
      simp only [List.nil_append, List.cons.injEq] at h
      obtain ⟨rfl, rfl⟩ := h
      rw [bibnickSearch_cons, if_pos rfl]
      obtain ⟨g, hg⟩ := tryBracket_complete c q hne hnl
      rw [hg]
      exact ⟨g, rfl⟩
    | cons y p' =>
      simp only [List.cons_append, List.cons.injEq] at h
      obtain ⟨rfl, h2⟩ := h
      rw [bibnickSearch_cons]
      by_cases hx : x = '['
      · rw [if_pos hx]
        cases htb : tryBracket rest with
        | some g => exact ⟨g, rfl⟩
        | none => exact ih p' c q hne hnl h2
      · rw [if_neg hx]
        exact ih p' c q hne hnl h2

/-- A list that appears between a prefix and a suffix is found by the
substring test. -/
theorem strContainsAux_of_parts (nd : List Char) : ∀ (pre suf : List Char),
    strContainsAux nd (pre ++ nd ++ suf) = true := by
  intro pre
  induction pre with
  | nil =>
    intro suf
    rw [List.nil_append]
    cases nd with
    | nil => cases suf <;> simp [strContainsAux, List.isEmpty, List.isPrefixOf]
    | cons a nd' =>
      rw [List.cons_append]
      rw [show strContainsAux (a :: nd') (a :: (nd' ++ suf)) =
        ((a :: nd').isPrefixOf (a :: (nd' ++ suf)) || strContainsAux (a :: nd') (nd' ++ suf))
        from rfl]
      have hpre : (a :: nd').isPrefixOf (a :: (nd' ++ suf)) = true := by
        rw [ List.isPrefixOf_iff_prefix]
        exact ⟨suf, by simp⟩
      rw [hpre, Bool.true_or]
  | cons x pre ih =>
    intro suf
    rw [List.cons_append, List.cons_append]
    rw [show strContainsAux nd (x :: (pre ++ nd ++ suf)) =
      (nd.isPrefixOf (x :: (pre ++ nd ++ suf)) || strContainsAux nd (pre ++ nd ++ suf)) from rfl]
    rw [ih suf, Bool.or_true]

/-- C7: `filename_to_bibnick` returns the content of a bracketed substring
`[...]` (excluding the brackets) when one is present — so the returned
string, wrapped back in brackets, occurs contiguously in the filename —
and otherwise returns the whole filename including its extension.  (The
regex `\[(.+)\]` requires a non-empty capture in which `.` matches no
newline, hence the shape of the presence condition.) -/
theorem filename_to_bibnick_spec (fn : String) :
    ((∃ p c q, c ≠ ([] : List Char) ∧ '\n' ∉ c ∧ fn.data = p ++ '[' :: (c ++ ']' :: q)) →
      strContainsAux ('[' :: ((filename_to_bibnick fn).data ++ [']'])) fn.data = true) ∧
    ((¬ ∃ p c q, c ≠ ([] : List Char) ∧ '\n' ∉ c ∧ fn.data = p ++ '[' :: (c ++ ']' :: q)) →
      filename_to_bibnick fn = fn) := by
  constructor
  · rintro ⟨p, c, q, hne, hnl, hdec⟩
    obtain ⟨g, hg⟩ := bibnickSearch_complete fn.data p c q hne hnl hdec
    have hres : filename_to_bibnick fn = g := by
      unfold filename_to_bibnick
      rw [hg]
    obtain ⟨-, -, p', q', hp'⟩ := bibnickSearch_sound fn.data g hg
    rw [hres, hp']
    have hshape : p' ++ '[' :: (g.data ++ ']' :: q') =
        p' ++ ('[' :: (g.data ++ [']'])) ++ q' := by
      simp [List.append_assoc]
    rw [hshape]
    exact strContainsAux_of_parts ('[' :: (g.data ++ [']'])) p' q'
  · intro hno
    unfold filename_to_bibnick
    cases hs : bibnickSearch fn.data with
    | none => rfl
    | some g =>
      obtain ⟨hne, hnl, p, q, hp⟩ := bibnickSearch_sound fn.data g hs
      exact absurd ⟨p, g.data, q, hne, hnl, hp⟩ hno

/-- Witness for C7: the filename `[Smith2020]notes.pdf` contains a
bracketed substring, and the returned key re-bracketed occurs in it. -/
theorem filename_to_bibnick_spec_witness :
    strContainsAux ('[' :: (((filename_to_bibnick "[Smith2020]notes.pdf").data ++ [']'])))
      "[Smith2020]notes.pdf".data = true :=
  (filename_to_bibnick_spec "[Smith2020]notes.pdf").1
    ⟨[], "Smith2020".data, "notes.pdf".data, by decide, by decide, by decide⟩

/-- Accumulating the enumeration loop of `_printer` in closed form. -/
theorem printer_foldl (l : List (Nat × String)) : ∀ (init : String),
    l.foldl (fun out p => out ++ toString (p.1 + 1) ++ ". " ++ p.2 ++ "\n") init =
      init ++ strConcat (l.map (fun p => toString (p.1 + 1) ++ ". " ++ p.2 ++ "\n")) := by
  induction l with
  | nil =>
    intro init
    simp [strConcat, String.append_empty]
  | cons p l ih =>
    intro init
    simp only [List.foldl_cons, List.map_cons, strConcat]
    rw [ih]
    simp [String.append_assoc]

/-- C8: `_printer` renders, for a non-empty set, the header line, an
underline of `=` whose length equals the header's length, then the items in
ascending (lexicographic) order numbered from 1; for the empty set it
returns the empty string. -/
theorem printer_spec (things : Finset String) (msg : String) :
    (things = ∅ → _printer things msg = "") ∧
    (things ≠ ∅ →
      _printer things msg =
        msg ++ "\n" ++ String.mk (List.replicate msg.length '=') ++ "\n" ++
          strConcat (((things.sort (fun a b => a ≤ b)).enum).map
            (fun p => toString (p.1 + 1) ++ ". " ++ p.2 ++ "\n")) ∧
      (String.mk (List.replicate msg.length '=')).length = msg.length ∧
      List.Sorted (fun a b => a ≤ b) (things.sort (fun a b => a ≤ b)) ∧
      (things.sort (fun a b => a ≤ b)).length = things.card) := by
  constructor
  · intro h
    subst h
    simp [_printer]
  · intro h
    have hcard : 0 < things.card :=
      Finset.card_pos.2 (Finset.nonempty_iff_ne_empty.2 h)
    refine ⟨?_, ?_, Finset.sort_sorted _ _, Finset.length_sort _⟩
    · unfold _printer
      rw [if_pos hcard, printer_foldl]
    · exact List.length_replicate _ _

/-- Witness for C8 at the set `{a, b}` and header `hd`. -/
theorem printer_spec_witness :
    _printer (insert "b" (insert "a" ∅)) "hd" =
      "hd" ++ "\n" ++ String.mk (List.replicate ("hd" : String).length '=') ++ "\n" ++
        strConcat ((((insert "b" (insert "a" ∅) : Finset String).sort
            (fun a b => a ≤ b)).enum).map
          (fun p => toString (p.1 + 1) ++ ". " ++ p.2 ++ "\n")) :=
  (((printer_spec (insert "b" (insert "a" ∅)) "hd").2 (by decide)).1)

/-- `List.find?` returns the first satisfying element. -/
theorem find?_first {α : Type} (p : α → Bool) (l : List α) (x : α) (h : l.find? p = some x) :
    p x = true ∧ ∃ pre suf, l = pre ++ x :: suf ∧ ∀ g ∈ pre, p g = false := by
  induction l with
  | nil => cases h
  | cons a l ih =>
    cases hpa : p a with
    | true =>
      have hx : a = x := by
        have hfind : (a :: l).find? p = some a := by
          rw [List.find?_cons, hpa]
        rw [hfind] at h
        exact Option.some.inj h
      subst hx
      exact ⟨hpa, [], l, rfl, by intro g hg; cases hg⟩
    | false =>
      have hfind : (a :: l).find? p = l.find? p := by
        rw [List.find?_cons, hpa]
      rw [hfind] at h
      obtain ⟨hp, pre, suf, rfl, hpre⟩ := ih h
      refine ⟨hp, a :: pre, suf, rfl, ?_⟩
      intro g hg
      rcases List.mem_cons.1 hg with rfl | hg
      · exact hpa
      · exact hpre g hg

/-- C10: `find_pdf_from_bibnick` matches by substring, not by derived key:
it returns the first file of the walk whose name contains the key and ends
in `.pdf` (everything before it fails the test), it returns nothing when no
filename matches, and for the repository `["[Smith2020]paper.pdf",
"other.pdf"]` with key `Smith` it returns a PDF whose bracket-derived key
`Smith2020` differs from the requested key. -/
theorem find_pdf_from_bibnick_spec :
    (∀ (bibnick : String) (files : List String) (f : String),
        find_pdf_from_bibnick bibnick files = some f →
          pdfMatch bibnick f = true ∧
          ∃ pre suf, files = pre ++ f :: suf ∧ ∀ g ∈ pre, pdfMatch bibnick g = false) ∧
    (∀ (bibnick : String) (files : List String),
        (∀ g ∈ files, pdfMatch bibnick g = false) →
          find_pdf_from_bibnick bibnick files = none) ∧
    (find_pdf_from_bibnick "Smith" ["[Smith2020]paper.pdf", "other.pdf"] =
        some "[Smith2020]paper.pdf" ∧
      filename_to_bibnick "[Smith2020]paper.pdf" = "Smith2020" ∧
      ("Smith2020" : String) ≠ "Smith") := by
  refine ⟨?_, ?_, by decide, by decide, by decide⟩
  · intro bibnick files f h
    exact find?_first (pdfMatch bibnick) files f h
  · intro bibnick files h
    unfold find_pdf_from_bibnick
    rw [List.find?_eq_none]
    intro x hx
    rw [h x hx]
    simp

/-- Witness for C10: no filename matches, so nothing is returned. -/
theorem find_pdf_from_bibnick_spec_witness :
    find_pdf_from_bibnick "Smith" ["a.txt"] = none :=
  find_pdf_from_bibnick_spec.2.1 "Smith" ["a.txt"] (by decide)
